import Mathlib

set_option maxHeartbeats 1000000

/-! Shallow embedding of the GraphQL language-server core (src/server.js).

Pure Lean models of the scanner (parseGraphQLDefinitions), the word
locator, the definition resolver, the span expander and the three query
handlers (onDefinition, onHover, onDocumentSymbol).  Strings are modelled
at the character level; the JavaScript library calls used by the source
(String.prototype.split, trim, startsWith, match with the regexes of the
source, Array.prototype.find and join) are given explicit character-list
implementations with the same semantics on the inputs the server sees. -/

/-- Character class of the source regexes /\w/ and /[a-zA-Z0-9_]/. -/
def isWordChar (c : Char) : Bool :=
  ('a' ≤ c && c ≤ 'z') || ('A' ≤ c && c ≤ 'Z') || ('0' ≤ c && c ≤ '9') || c = '_'

/-- Whitespace as matched by the JavaScript regex class \s and trimmed by
String.prototype.trim (restricted to the characters that can occur in
schema documents). -/
def isJsSpace (c : Char) : Bool :=
  c = ' ' || c = '\t' || c = '\n' || c = '\x0b' || c = '\x0c' || c = '\r' || c = '\xa0'

/-- Model of JavaScript String.prototype.trim: drop whitespace from both ends. -/
def jsTrim (s : String) : String :=
  ⟨((s.data.dropWhile isJsSpace).reverse.dropWhile isJsSpace).reverse⟩

/-- Model of JavaScript String.prototype.startsWith. -/
def startsWithStr (s pre : String) : Bool :=
  pre.data.isPrefixOf s.data

/-- Number of non-overlapping left-to-right matches of the triple-quote
delimiter, as computed by the source expression
(trimmed.match(/"""/g) || []).length. -/
def countTQ : List Char → Nat
  | '"' :: '"' :: '"' :: rest => countTQ rest + 1
  | _ :: rest => countTQ rest
  | [] => 0

/-- Model of text.split(newline) at the character level: every newline
character separates pieces, and empty pieces are kept. -/
def splitLinesChars : List Char → List (List Char)
  | [] => [[]]
  | c :: cs =>
    if c = '\n' then [] :: splitLinesChars cs
    else
      match splitLinesChars cs with
      | [] => [[c]]
      | l :: ls => (c :: l) :: ls

/-- The lines of a document, as produced by text.split(newline) in the source. -/
def splitLines (s : String) : List String :=
  (splitLinesChars s.data).map String.mk

/-- Model of Array.prototype.join with a newline separator, also used for
the incremental fullDef += newline + line accumulation of the span
expander. -/
def joinNL : List String → String
  | [] => ""
  | [s] => s
  | s :: ss => s ++ "\n" ++ joinNL ss

/-- The six declaration keywords of the definitionPattern regex
alternation, in source order. -/
def defKeywords : List String := ["type", "enum", "union", "interface", "scalar", "input"]

/-- Strip an expected character sequence from the front of a line, or fail. -/
def dropPrefixChars : List Char → List Char → Option (List Char)
  | [], cs => some cs
  | _ :: _, [] => none
  | k :: ks, c :: cs => if c = k then dropPrefixChars ks cs else none

/-- Match the keyword alternation (type|enum|union|interface|scalar|input)
anchored at the start of the line; no keyword is a prefix of another, so
at most one alternative can succeed, as in the regex. -/
def matchKeyword (cs : List Char) : Option (String × List Char) :=
  defKeywords.findSome? fun k => (dropPrefixChars k.data cs).map fun rest => (k, rest)

/-- Model of line.match(definitionPattern) for the source regex
/^(type|enum|union|interface|scalar|input)\s+(\w+)([^a-zA-Z0-9_]|$)/,
returning the two capture groups (kind, name): the keyword anchored at
column 0, one or more whitespace characters, then a maximal non-empty
identifier run, which the trailing group forces to end at a non-word
character or at end of line. -/
def matchDefinition (line : String) : Option (String × String) :=
  match matchKeyword line.data with
  | none => none
  | some (k, rest) =>
    if (rest.takeWhile isJsSpace).isEmpty then none
    else
      let name := (rest.dropWhile isJsSpace).takeWhile isWordChar
      if name.isEmpty then none else some (k, ⟨name⟩)

/-- One record pushed onto the definitions array by parseGraphQLDefinitions. -/
structure Definition where
  kind : String
  name : String
  line : Nat
  text : String
  documentation : Option String
deriving DecidableEq, Repr

/-- The two pieces of mutable scan state of parseGraphQLDefinitions:
the currentDoc accumulator and the inMultiLineComment flag. -/
structure ScanState where
  currentDoc : List String
  inMultiLineComment : Bool
deriving DecidableEq, Repr

/-- One iteration of the lines.forEach body of parseGraphQLDefinitions:
from the state before a line, produce the state after it and the
declaration it emits, if any. -/
def scanLine (st : ScanState) (line : String) (index : Nat) : ScanState × Option Definition :=
  let trimmed := jsTrim line
  if startsWithStr trimmed "\"\"\"" then
    let st1 : ScanState := { st with currentDoc := st.currentDoc ++ [line] }
    if countTQ trimmed.data = 2 then (st1, none)
    else ({ st1 with inMultiLineComment := !st1.inMultiLineComment }, none)
  else if st.inMultiLineComment then
    ({ st with currentDoc := st.currentDoc ++ [line] }, none)
  else if startsWithStr trimmed "#" then
    ({ st with currentDoc := st.currentDoc ++ [line] }, none)
  else
    match matchDefinition line with
    | some (kind, name) =>
      (⟨[], st.inMultiLineComment⟩,
       some ⟨kind, name, index, trimmed,
             if st.currentDoc.isEmpty then none else some (joinNL st.currentDoc)⟩)
    | none =>
      if trimmed.length > 0 then ({ st with currentDoc := [] }, none)
      else (st, none)

/-- The lines.forEach loop: scan the given lines, numbering them from
index, and collect the emitted declarations in order. -/
def scanLines : List String → Nat → ScanState → List Definition
  | [], _, _ => []
  | l :: ls, i, st =>
    match scanLine st l i with
    | (st1, some d) => d :: scanLines ls (i + 1) st1
    | (st1, none) => scanLines ls (i + 1) st1

/-- Model of parseGraphQLDefinitions: split the document into lines and
run the scanner from the empty initial state. -/
def parseGraphQLDefinitions (text : String) : List Definition :=
  scanLines (splitLines text) 0 ⟨[], false⟩

/-- Close the in-progress identifier run of the word scanner, if any. -/
def flushRun (cur : Option (Nat × List Char)) : List (Nat × String) :=
  match cur with
  | some (s, acc) => [(s, ⟨acc.reverse⟩)]
  | none => []

/-- Character-level scan collecting all maximal identifier runs with their
start offsets, in left-to-right order: the match sequence of the global
regex /[a-zA-Z0-9_]+/g . -/
def runsGo : List Char → Nat → Option (Nat × List Char) → List (Nat × String)
  | [], _, cur => flushRun cur
  | c :: cs, i, cur =>
    if isWordChar c then
      match cur with
      | some (s, acc) => runsGo cs (i + 1) (some (s, c :: acc))
      | none => runsGo cs (i + 1) (some (i, [c]))
    else
      flushRun cur ++ runsGo cs (i + 1) none

/-- All maximal identifier runs of a document with their start offsets. -/
def wordRuns (text : String) : List (Nat × String) :=
  runsGo text.data 0 none

/-- The word-at-cursor loop shared by onDefinition and onHover: the first
identifier run whose inclusive span contains the offset
(match.index <= offset and offset <= match.index + match length). -/
def getWordAt (text : String) (offset : Nat) : Option String :=
  ((wordRuns text).find? fun r =>
      decide (r.1 ≤ offset ∧ offset ≤ r.1 + r.2.length)).map Prod.snd

/-- The five own entries of the BUILTIN_SCALARS object literal: the
built-in GraphQL scalar type names with their fixed descriptions. -/
def BUILTIN_SCALARS (name : String) : Option String :=
  if name = "String" then
    some "The String scalar type represents textual data, represented as UTF-8 character sequences."
  else if name = "Int" then
    some "The Int scalar type represents non-fractional signed whole numeric values. Int can represent values between -(2^31) and 2^31 - 1."
  else if name = "Float" then
    some "The Float scalar type represents signed double-precision fractional values as specified by IEEE 754."
  else if name = "Boolean" then
    some "The Boolean scalar type represents true or false."
  else if name = "ID" then
    some "The ID scalar type represents a unique identifier, often used to refetch an object or as the key for a cache. The ID type is serialized in the same way as a String."
  else none

/-- The property names that the BUILTIN_SCALARS object literal inherits
from Object.prototype.  All of them are matched by the identifier word
regex, and reading any of them through the bracket lookup yields a truthy
value (a built-in function, or the prototype object for the last one), so
the truthiness test of the hover handler also passes for these names. -/
def objectPrototypeMembers : List String :=
  ["constructor", "hasOwnProperty", "isPrototypeOf", "propertyIsEnumerable",
   "toLocaleString", "toString", "valueOf", "__defineGetter__",
   "__defineSetter__", "__lookupGetter__", "__lookupSetter__", "__proto__"]

/-- String coercion of an inherited Object.prototype member when the
hover handler concatenates it into its markdown template, as rendered by
V8, the engine of the Node.js runtime the server declares: native
functions print as function name() followed by a bracketed native-code
marker in braces (the constructor member is the Object function itself),
and the proto accessor yields the prototype object, which coerces to the
generic object tag.  The claims never depend on these exact strings, only
on the lookup being truthy. -/
def protoMemberDisplay (word : String) : String :=
  if word = "__proto__" then "[object Object]"
  else if word = "constructor" then "function Object() \x7b [native code] \x7d"
  else "function " ++ word ++ "() \x7b [native code] \x7d"

/-- Model of the JavaScript property read BUILTIN_SCALARS[word] together
with its truthiness and string coercion: the five own entries return
their descriptions, the members inherited from Object.prototype are
truthy and coerce to their display string, and any other name reads
undefined, which is falsy. -/
def builtinLookup (word : String) : Option String :=
  match BUILTIN_SCALARS word with
  | some desc => some desc
  | none =>
    if word ∈ objectPrototypeMembers then some (protoMemberDisplay word) else none

/-- The resolver expression definitions.find of both onDefinition and
onHover: the first declaration whose name equals the word exactly. -/
def resolveDefinition (defs : List Definition) (word : String) : Option Definition :=
  defs.find? fun d => d.name == word

/-- An LSP position, zero-based line and character. -/
structure Position where
  line : Nat
  character : Nat
deriving DecidableEq, Repr

/-- An LSP range; the end field of the source is called stop here because
the word end is a Lean keyword. -/
structure Range where
  start : Position
  stop : Position
deriving DecidableEq, Repr

/-- An LSP location, as returned by onDefinition. -/
structure Location where
  uri : String
  range : Range
deriving DecidableEq, Repr

/-- Model of the onDefinition handler, after the document text and the
offset of the cursor position have been fetched from the document store. -/
def onDefinition (uri text : String) (offset : Nat) : Option Location :=
  match getWordAt text offset with
  | none => none
  | some word =>
    match resolveDefinition (parseGraphQLDefinitions text) word with
    | none => none
    | some d => some ⟨uri, ⟨⟨d.line, 0⟩, ⟨d.line, d.text.length⟩⟩⟩

/-- Count of opening minus closing braces on a line, the source expression
(line.match brace-regex or empty).length difference. -/
def braceDelta (line : String) : Int :=
  (line.data.count '\x7b' : Int) - (line.data.count '\x7d' : Int)

/-- The brace-balance while loop of onHover: while lines remain and the
balance is positive, append the next raw line and update the balance. -/
def expandBraces : List String → String → Int → String
  | [], acc, _ => acc
  | l :: ls, acc, bal =>
    if 0 < bal then expandBraces ls (acc ++ "\n" ++ l) (bal + braceDelta l)
    else acc

/-- The union-continuation while loop of onHover: append following lines
while their trimmed text starts with the continuation bar. -/
def expandUnion : List String → String → String
  | [], acc => acc
  | l :: ls, acc =>
    if startsWithStr (jsTrim l) "|" then expandUnion ls (acc ++ "\n" ++ l)
    else acc

/-- The full-definition span computed by onHover from a resolved
declaration: brace-matched block for type, interface, input and enum;
bar-continuation lines for union; just the introducer line otherwise. -/
def expandSpan (text : String) (d : Definition) : String :=
  let lines := splitLines text
  let intro := lines.getD d.line ""
  if d.kind = "type" ∨ d.kind = "interface" ∨ d.kind = "input" ∨ d.kind = "enum" then
    expandBraces (lines.drop (d.line + 1)) intro (braceDelta intro)
  else if d.kind = "union" then
    expandUnion (lines.drop (d.line + 1)) intro
  else intro

/-- An LSP hover result: markup kind plus markdown value. -/
structure Hover where
  kind : String
  value : String
deriving DecidableEq, Repr

/-- The Scanner plus Resolver tail of the onHover handler, reached when
the word is not a built-in scalar: resolve the word and format the
documentation and expanded span inside a fenced code block. -/
def scannerHover (text word : String) : Option Hover :=
  match resolveDefinition (parseGraphQLDefinitions text) word with
  | none => none
  | some d =>
    some ⟨"markdown",
          "```graphql\n" ++
            (match d.documentation with
             | some doc => doc ++ "\n"
             | none => "") ++
            expandSpan text d ++ "\n```"⟩

/-- Model of the onHover handler, after the document text and the offset
of the cursor position have been fetched from the document store.  The
built-in test of the source is the truthiness of the property read
BUILTIN_SCALARS[word], modelled by builtinLookup, which also passes for
the names inherited from Object.prototype. -/
def onHover (text : String) (offset : Nat) : Option Hover :=
  match getWordAt text offset with
  | none => none
  | some word =>
    match builtinLookup word with
    | some desc =>
      some ⟨"markdown", "```graphql\nscalar " ++ word ++ "\n```\n\n" ++ desc⟩
    | none =>
      match resolveDefinition (parseGraphQLDefinitions text) word with
      | none => none
      | some d =>
        some ⟨"markdown",
              "```graphql\n" ++
                (match d.documentation with
                 | some doc => doc ++ "\n"
                 | none => "") ++
                expandSpan text d ++ "\n```"⟩

/-- The symbolKindMap table of onDocumentSymbol, using the numeric LSP
SymbolKind values (Class 5, Enum 10, Interface 11, Constant 14,
Struct 23), with the Class fallback of the source for unmapped kinds. -/
def symbolKindMap (kind : String) : Nat :=
  if kind = "type" then 5
  else if kind = "enum" then 10
  else if kind = "union" then 11
  else if kind = "interface" then 11
  else if kind = "scalar" then 14
  else if kind = "input" then 23
  else 5

/-- One outline entry returned by onDocumentSymbol. -/
structure DocumentSymbol where
  name : String
  kind : Nat
  range : Range
  selectionRange : Range
deriving DecidableEq, Repr

/-- Model of the onDocumentSymbol handler on the current document text. -/
def onDocumentSymbol (text : String) : List DocumentSymbol :=
  (parseGraphQLDefinitions text).map fun d =>
    ⟨d.name, symbolKindMap d.kind,
     ⟨⟨d.line, 0⟩, ⟨d.line, d.text.length⟩⟩,
     ⟨⟨d.line, 0⟩, ⟨d.line, d.text.length⟩⟩⟩

/-- Brace balance after the introducer line and the first j consumed
body lines, the running braceCount of the onHover while loop. -/
def braceBalanceAt (intro : String) (rest : List String) (j : Nat) : Int :=
  braceDelta intro + ((rest.take j).map braceDelta).sum

/-! Helper lemmas about the string primitives. -/

theorem jsTrim_empty_all_space {l : String} (hz : jsTrim l = "") :
    ∀ c ∈ l.data, isJsSpace c = true := by
  intro c hc
  by_contra hcp
  have hz' : ((l.data.dropWhile isJsSpace).reverse.dropWhile isJsSpace).reverse = ([] : List Char) :=
    congrArg String.data hz
  rw [List.reverse_eq_nil_iff] at hz'
  have hcr : c ∈ l.data.dropWhile isJsSpace := by
    have hsplit := List.takeWhile_append_dropWhile isJsSpace l.data
    rw [← hsplit] at hc
    rcases List.mem_append.mp hc with h | h
    · exact absurd (List.mem_takeWhile_imp h) hcp
    · exact h
  have := List.dropWhile_eq_nil_iff.mp hz' c (List.mem_reverse.mpr hcr)
  exact hcp this

theorem matchDefinition_all_space {l : String} (h : ∀ c ∈ l.data, isJsSpace c = true) :
    matchDefinition l = none := by
  have hk : matchKeyword l.data = none := by
    cases hd : l.data with
    | nil => decide
    | cons c cs =>
      have hc : isJsSpace c = true := h c (hd ▸ List.mem_cons_self c cs)
      have h1 : c ≠ 't' := fun h => by subst h; exact absurd hc (by decide)
      have h2 : c ≠ 'e' := fun h => by subst h; exact absurd hc (by decide)
      have h3 : c ≠ 'u' := fun h => by subst h; exact absurd hc (by decide)
      have h4 : c ≠ 'i' := fun h => by subst h; exact absurd hc (by decide)
      have h5 : c ≠ 's' := fun h => by subst h; exact absurd hc (by decide)
      simp [matchKeyword, defKeywords, dropPrefixChars, List.findSome?_cons, h1, h2, h3, h4, h5]
  simp [matchDefinition, hk]

theorem dropWhile_head_false {p : Char → Bool} :
    ∀ {l : List Char} {c : Char} {cs : List Char},
      l.dropWhile p = c :: cs → p c = false := by
  intro l
  induction l with
  | nil => intro c cs h; simp [List.dropWhile] at h
  | cons a l ih =>
    intro c cs h
    by_cases hp : p a
    · rw [List.dropWhile_cons_of_pos hp] at h
      exact ih h
    · rw [List.dropWhile_cons_of_neg hp] at h
      cases h
      simpa using hp

theorem joinNL_append_cons (a l : String) (rest : List String) :
    joinNL ((a ++ "\n" ++ l) :: rest) = a ++ "\n" ++ joinNL (l :: rest) := by
  cases rest with
  | nil => rfl
  | cons m ms =>
    show (a ++ "\n" ++ l) ++ "\n" ++ joinNL (m :: ms) = a ++ "\n" ++ (l ++ "\n" ++ joinNL (m :: ms))
    simp [String.append_assoc]

/-! Branch equations for one scanner step. -/

theorem scanLine_quote_line {st : ScanState} {l : String} (i : Nat)
    (h1 : startsWithStr (jsTrim l) "\"\"\"" = true) :
    (scanLine st l i).1.currentDoc = st.currentDoc ++ [l] ∧ (scanLine st l i).2 = none := by
  by_cases h2 : countTQ (jsTrim l).data = 2 <;> simp [scanLine, h1, h2]

theorem scanLine_inside {st : ScanState} {l : String} (i : Nat)
    (h1 : startsWithStr (jsTrim l) "\"\"\"" = false) (h2 : st.inMultiLineComment = true) :
    scanLine st l i = ({ st with currentDoc := st.currentDoc ++ [l] }, none) := by
  simp [scanLine, h1, h2]

theorem scanLine_hash {st : ScanState} {l : String} (i : Nat)
    (h1 : startsWithStr (jsTrim l) "\"\"\"" = false) (h2 : st.inMultiLineComment = false)
    (h3 : startsWithStr (jsTrim l) "#" = true) :
    scanLine st l i = ({ st with currentDoc := st.currentDoc ++ [l] }, none) := by
  simp [scanLine, h1, h2, h3]

theorem scanLine_decl {st : ScanState} {l : String} (i : Nat)
    (h1 : startsWithStr (jsTrim l) "\"\"\"" = false) (h2 : st.inMultiLineComment = false)
    (h3 : startsWithStr (jsTrim l) "#" = false)
    {kind name : String} (hm : matchDefinition l = some (kind, name)) :
    scanLine st l i =
      (⟨[], false⟩,
       some ⟨kind, name, i, jsTrim l,
             if st.currentDoc.isEmpty then none else some (joinNL st.currentDoc)⟩) := by
  simp [scanLine, h1, h2, h3, hm]

theorem scanLine_reset {st : ScanState} {l : String} (i : Nat)
    (h1 : startsWithStr (jsTrim l) "\"\"\"" = false) (h2 : st.inMultiLineComment = false)
    (h3 : startsWithStr (jsTrim l) "#" = false)
    (hm : matchDefinition l = none) (hne : jsTrim l ≠ "") :
    scanLine st l i = ({ st with currentDoc := [] }, none) := by
  have hlen : (jsTrim l).length > 0 := by
    rcases hq : (jsTrim l).data with _ | ⟨c, cs⟩
    · exact absurd (String.ext hq) hne
    · simp [String.length, hq]
  simp [scanLine, h1, h2, h3, hm, hlen]

theorem scanLine_blank {st : ScanState} {l : String} (i : Nat)
    (h2 : st.inMultiLineComment = false) (hz : jsTrim l = "") :
    scanLine st l i = (st, none) := by
  have h1 : startsWithStr (jsTrim l) "\"\"\"" = false := by rw [hz]; decide
  have h3 : startsWithStr (jsTrim l) "#" = false := by rw [hz]; decide
  have hm : matchDefinition l = none := matchDefinition_all_space (jsTrim_empty_all_space hz)
  have hlen : ¬ (jsTrim l).length > 0 := by rw [hz]; decide
  simp [scanLine, h1, h2, h3, hm, hlen]

theorem scanLine_flag_same {st : ScanState} {l : String} (i : Nat)
    (h : countTQ (jsTrim l).data = 2) :
    (scanLine st l i).1.inMultiLineComment = st.inMultiLineComment := by
  by_cases h1 : startsWithStr (jsTrim l) "\"\"\"" = true
  · simp [scanLine, h1, h]
  · have h1' : startsWithStr (jsTrim l) "\"\"\"" = false := by simpa using h1
    by_cases h2 : st.inMultiLineComment = true
    · simp [scanLine_inside i h1' h2]
    · have h2' : st.inMultiLineComment = false := by simpa using h2
      by_cases h3 : startsWithStr (jsTrim l) "#" = true
      · simp [scanLine_hash i h1' h2' h3]
      · have h3' : startsWithStr (jsTrim l) "#" = false := by simpa using h3
        cases hm : matchDefinition l with
        | none =>
          by_cases hz : jsTrim l = ""
          · simp [scanLine_blank i h2' hz]
          · simp [scanLine_reset i h1' h2' h3' hm hz]
        | some kn =>
          obtain ⟨kind, name⟩ := kn
          simp [scanLine_decl i h1' h2' h3' hm, h2']

theorem scanLine_emit {st st1 : ScanState} {l : String} {i : Nat} {d : Definition}
    (h : scanLine st l i = (st1, some d)) :
    matchDefinition l = some (d.kind, d.name) ∧ d.line = i ∧ d.text = jsTrim l ∧
    d.documentation =
      (if st.currentDoc.isEmpty then none else some (joinNL st.currentDoc)) ∧
    st1 = ⟨[], st.inMultiLineComment⟩ := by
  by_cases h1 : startsWithStr (jsTrim l) "\"\"\"" = true
  · have hnone := (@scanLine_quote_line st l i h1).2
    rw [h] at hnone
    simp at hnone
  · have h1' : startsWithStr (jsTrim l) "\"\"\"" = false := by simpa using h1
    by_cases h2 : st.inMultiLineComment = true
    · rw [scanLine_inside i h1' h2] at h
      simp [Prod.mk.injEq] at h
    · have h2' : st.inMultiLineComment = false := by simpa using h2
      by_cases h3 : startsWithStr (jsTrim l) "#" = true
      · rw [scanLine_hash i h1' h2' h3] at h
        simp [Prod.mk.injEq] at h
      · have h3' : startsWithStr (jsTrim l) "#" = false := by simpa using h3
        cases hm : matchDefinition l with
        | none =>
          by_cases hz : jsTrim l = ""
          · rw [scanLine_blank i h2' hz] at h
            simp [Prod.mk.injEq] at h
          · rw [scanLine_reset i h1' h2' h3' hm hz] at h
            simp [Prod.mk.injEq] at h
        | some kn =>
          obtain ⟨kind, name⟩ := kn
          rw [scanLine_decl i h1' h2' h3' hm] at h
          simp only [Prod.mk.injEq, Option.some.injEq] at h
          obtain ⟨hst, hd⟩ := h
          subst hd
          exact ⟨rfl, rfl, rfl, rfl, by rw [← hst, h2']⟩

/-! Global facts about the scanner loop. -/

theorem scanLines_mem :
    ∀ (ls : List String) (i : Nat) (st : ScanState) (d : Definition),
      d ∈ scanLines ls i st →
      ∃ j, j < ls.length ∧ d.line = i + j ∧
        matchDefinition (ls.getD j "") = some (d.kind, d.name) ∧
        d.text = jsTrim (ls.getD j "") := by
  intro ls
  induction ls with
  | nil => intro i st d h; simp [scanLines] at h
  | cons l ls ih =>
    intro i st d h
    rcases hsc : scanLine st l i with ⟨st1, od⟩
    cases od with
    | some d0 =>
      simp only [scanLines, hsc] at h
      rcases List.mem_cons.mp h with rfl | hmem
      · obtain ⟨hm, hline, htext, _, _⟩ := scanLine_emit hsc
        exact ⟨0, by simp, by simpa using hline, by simpa using hm, by simpa using htext⟩
      · obtain ⟨j, hj, hline, hm, ht⟩ := ih (i + 1) st1 d hmem
        exact ⟨j + 1, by simpa using Nat.succ_lt_succ hj, by omega,
               by simpa using hm, by simpa using ht⟩
    | none =>
      simp only [scanLines, hsc] at h
      obtain ⟨j, hj, hline, hm, ht⟩ := ih (i + 1) st1 d h
      exact ⟨j + 1, by simpa using Nat.succ_lt_succ hj, by omega,
             by simpa using hm, by simpa using ht⟩

theorem scanLines_sorted :
    ∀ (ls : List String) (i : Nat) (st : ScanState),
      List.Pairwise (fun a b => a.line < b.line) (scanLines ls i st) := by
  intro ls
  induction ls with
  | nil => intro i st; simp [scanLines]
  | cons l ls ih =>
    intro i st
    rcases hsc : scanLine st l i with ⟨st1, od⟩
    cases od with
    | some d0 =>
      simp only [scanLines, hsc]
      refine List.pairwise_cons.mpr ⟨?_, ih (i + 1) st1⟩
      intro d hd
      obtain ⟨j, _, hline, _, _⟩ := scanLines_mem ls (i + 1) st1 d hd
      obtain ⟨_, hline0, _, _, _⟩ := scanLine_emit hsc
      omega
    | none =>
      simp only [scanLines, hsc]
      exact ih (i + 1) st1

/-- Array.prototype.find on a list whose line numbers are strictly
increasing returns an element of minimal line among all matches. -/
theorem find?_min_line {defs : List Definition}
    (hs : List.Pairwise (fun a b => a.line < b.line) defs)
    {p : Definition → Bool} {d : Definition} (h : defs.find? p = some d) :
    ∀ e ∈ defs, p e = true → d.line ≤ e.line := by
  induction defs with
  | nil => simp at h
  | cons a l ih =>
    by_cases hpa : p a = true
    · rw [List.find?_cons_of_pos _ hpa] at h
      injection h with h
      subst h
      intro e he _
      rcases List.mem_cons.mp he with rfl | hel
      · exact le_refl _
      · exact le_of_lt ((List.pairwise_cons.mp hs).1 e hel)
    · rw [List.find?_cons_of_neg _ hpa] at h
      intro e he hpe
      rcases List.mem_cons.mp he with rfl | hel
      · exact absurd hpe hpa
      · exact ih (List.pairwise_cons.mp hs).2 h e hel hpe

/-! Specifications of the two span-expansion loops. -/

theorem expandBraces_spec :
    ∀ (ls : List String) (bal : Int) (acc : String),
      ∃ k, k ≤ ls.length ∧
        expandBraces ls acc bal = joinNL (acc :: ls.take k) ∧
        (∀ j, j < k → 0 < bal + ((ls.take j).map braceDelta).sum) ∧
        (k = ls.length ∨ ¬ 0 < bal + ((ls.take k).map braceDelta).sum) := by
  intro ls
  induction ls with
  | nil =>
    intro bal acc
    exact ⟨0, Nat.le_refl 0, by simp [expandBraces, joinNL],
           fun j hj => absurd hj (Nat.not_lt_zero j), Or.inl rfl⟩
  | cons l ls ih =>
    intro bal acc
    by_cases hb : 0 < bal
    · obtain ⟨k, hk, he, hpos, hstop⟩ := ih (bal + braceDelta l) (acc ++ "\n" ++ l)
      refine ⟨k + 1, Nat.succ_le_succ hk, ?_, ?_, ?_⟩
      · rw [show expandBraces (l :: ls) acc bal
              = expandBraces ls (acc ++ "\n" ++ l) (bal + braceDelta l) from by
            simp [expandBraces, hb]]
        rw [he, List.take_succ_cons, joinNL_append_cons]
        rfl
      · intro j hj
        cases j with
        | zero => simpa using hb
        | succ j' =>
          have := hpos j' (Nat.lt_of_succ_lt_succ hj)
          rw [List.take_succ_cons]
          simp only [List.map_cons, List.sum_cons]
          omega
      · rcases hstop with h | h
        · exact Or.inl (by simp [h])
        · refine Or.inr ?_
          rw [List.take_succ_cons]
          simp only [List.map_cons, List.sum_cons]
          omega
    · refine ⟨0, Nat.zero_le _, ?_, fun j hj => absurd hj (Nat.not_lt_zero j), Or.inr ?_⟩
      · rw [show expandBraces (l :: ls) acc bal = acc from by simp [expandBraces, hb]]
        simp [joinNL]
      · simpa using hb

theorem expandUnion_spec :
    ∀ (ls : List String) (acc : String),
      ∃ k, k ≤ ls.length ∧
        expandUnion ls acc = joinNL (acc :: ls.take k) ∧
        (∀ j, j < k → startsWithStr (jsTrim (ls.getD j "")) "|" = true) ∧
        (k = ls.length ∨ startsWithStr (jsTrim (ls.getD k "")) "|" = false) := by
  intro ls
  induction ls with
  | nil =>
    intro acc
    exact ⟨0, Nat.le_refl 0, by simp [expandUnion, joinNL],
           fun j hj => absurd hj (Nat.not_lt_zero j), Or.inl rfl⟩
  | cons l ls ih =>
    intro acc
    by_cases hb : startsWithStr (jsTrim l) "|" = true
    · obtain ⟨k, hk, he, hcond, hstop⟩ := ih (acc ++ "\n" ++ l)
      refine ⟨k + 1, Nat.succ_le_succ hk, ?_, ?_, ?_⟩
      · rw [show expandUnion (l :: ls) acc = expandUnion ls (acc ++ "\n" ++ l) from by
            simp [expandUnion, hb]]
        rw [he, List.take_succ_cons, joinNL_append_cons]
        rfl
      · intro j hj
        cases j with
        | zero => simpa using hb
        | succ j' => simpa using hcond j' (Nat.lt_of_succ_lt_succ hj)
      · rcases hstop with h | h
        · exact Or.inl (by simp [h])
        · exact Or.inr (by simpa using h)
    · have hb' : startsWithStr (jsTrim l) "|" = false := by simpa using hb
      refine ⟨0, Nat.zero_le _, ?_, fun j hj => absurd hj (Nat.not_lt_zero j), Or.inr ?_⟩
      · rw [show expandUnion (l :: ls) acc = acc from by simp [expandUnion, hb']]
        simp [joinNL]
      · simpa using hb'

/-! Specification of the identifier-run scanner. -/

theorem runsGo_some_eq :
    ∀ (cs : List Char) (i s : Nat) (acc : List Char),
      runsGo cs i (some (s, acc)) =
        (s, ⟨acc.reverse ++ cs.takeWhile isWordChar⟩) ::
          runsGo (cs.dropWhile isWordChar) (i + (cs.takeWhile isWordChar).length) none := by
  intro cs
  induction cs with
  | nil =>
    intro i s acc
    simp [runsGo, flushRun]
  | cons c cs ih =>
    intro i s acc
    by_cases hc : isWordChar c = true
    · rw [show runsGo (c :: cs) i (some (s, acc)) = runsGo cs (i + 1) (some (s, c :: acc)) from by
          simp [runsGo, hc]]
      rw [ih]
      rw [List.takeWhile_cons_of_pos hc, List.dropWhile_cons_of_pos hc, List.length_cons]
      rw [show i + 1 + (cs.takeWhile isWordChar).length
          = i + ((cs.takeWhile isWordChar).length + 1) from by omega]
      congr 1
      simp
    · have hce : isWordChar c = false := by simpa using hc
      rw [List.takeWhile_cons_of_neg (by simp [hce]), List.dropWhile_cons_of_neg (by simp [hce])]
      simp only [List.length_nil, Nat.add_zero]
      rw [show runsGo (c :: cs) i (some (s, acc))
          = flushRun (some (s, acc)) ++ runsGo cs (i + 1) none from by simp [runsGo, hce]]
      rw [show runsGo (c :: cs) i none = runsGo cs (i + 1) none from by
          simp [runsGo, hce, flushRun]]
      simp [flushRun]

theorem runsGo_cons_none_pos {c : Char} (cs : List Char) (i : Nat) (hc : isWordChar c = true) :
    runsGo (c :: cs) i none =
      (i, ⟨(c :: cs).takeWhile isWordChar⟩) ::
        runsGo ((c :: cs).dropWhile isWordChar)
          (i + ((c :: cs).takeWhile isWordChar).length) none := by
  rw [show runsGo (c :: cs) i none = runsGo cs (i + 1) (some (i, [c])) from by
      simp [runsGo, hc]]
  rw [runsGo_some_eq]
  rw [List.takeWhile_cons_of_pos hc, List.dropWhile_cons_of_pos hc, List.length_cons]
  rw [show i + 1 + (cs.takeWhile isWordChar).length
      = i + ((cs.takeWhile isWordChar).length + 1) from by omega]
  simp

theorem runsGo_cons_none_neg {c : Char} (cs : List Char) (i : Nat) (hc : isWordChar c = false) :
    runsGo (c :: cs) i none = runsGo cs (i + 1) none := by
  simp [runsGo, hc, flushRun]

/-- Every run reported by the scanner is a non-empty maximal identifier
run of the input: it starts at or after the scan origin, its characters
are exactly the longest identifier run of the input at its start offset,
and it is either at the origin or preceded by a non-identifier character;
distinct runs are disjoint and listed left to right. -/
theorem runsGo_spec :
    ∀ (n : Nat) (cs : List Char), cs.length ≤ n → ∀ (i : Nat),
      (∀ s w, (s, w) ∈ runsGo cs i none →
        i ≤ s ∧ w.data ≠ [] ∧
        w.data = (cs.drop (s - i)).takeWhile isWordChar ∧
        (s = i ∨ ∃ c, cs[s - i - 1]? = some c ∧ isWordChar c = false)) ∧
      List.Pairwise (fun a b => a.1 + a.2.length < b.1) (runsGo cs i none) := by
  intro n
  induction n with
  | zero =>
    intro cs hlen i
    have hnil : cs = [] := List.length_eq_zero.mp (Nat.le_zero.mp hlen)
    subst hnil
    exact ⟨fun s w h => by simp [runsGo, flushRun] at h, by simp [runsGo, flushRun]⟩
  | succ n ih =>
    intro cs hlen i
    cases cs with
    | nil =>
      exact ⟨fun s w h => by simp [runsGo, flushRun] at h, by simp [runsGo, flushRun]⟩
    | cons c cs' =>
      have hlen1 : cs'.length + 1 ≤ n + 1 := by simpa using hlen
      by_cases hc : isWordChar c = true
      · obtain ⟨t, ht⟩ : ∃ t, (c :: cs').takeWhile isWordChar = t := ⟨_, rfl⟩
        have htc : t = c :: cs'.takeWhile isWordChar := by
          rw [← ht, List.takeWhile_cons_of_pos hc]
        have tailfacts :
            (∀ s w, (s, w) ∈ runsGo ((c :: cs').dropWhile isWordChar) (i + t.length) none →
              i + t.length + 1 ≤ s ∧ w.data ≠ [] ∧
              w.data = ((c :: cs').drop (s - i)).takeWhile isWordChar ∧
              (∃ c', (c :: cs')[s - i - 1]? = some c' ∧ isWordChar c' = false)) ∧
            List.Pairwise (fun a b => a.1 + a.2.length < b.1)
              (runsGo ((c :: cs').dropWhile isWordChar) (i + t.length) none) := by
          cases hrc : (c :: cs').dropWhile isWordChar with
          | nil =>
            exact ⟨fun s w h => by simp [runsGo, flushRun] at h, by simp [runsGo, flushRun]⟩
          | cons rh rt =>
            have hrh : isWordChar rh = false := dropWhile_head_false hrc
            have hsplit : t ++ rh :: rt = c :: cs' := by
              conv_rhs => rw [← List.takeWhile_append_dropWhile isWordChar (c :: cs')]
              rw [hrc, ht]
            have hlensum : t.length + (rt.length + 1) = cs'.length + 1 := by
              have hl := congrArg List.length hsplit
              simpa using hl
            have hlen' : rt.length ≤ n := by omega
            obtain ⟨hmem', hpair'⟩ := ih rt hlen' (i + t.length + 1)
            constructor
            · intro s w h
              rw [runsGo_cons_none_neg rt _ hrh] at h
              obtain ⟨his, hne, hdata, _⟩ := hmem' s w h
              refine ⟨his, hne, ?_, ?_⟩
              · have h2 : (c :: cs').drop (s - i) = rt.drop (s - (i + t.length + 1)) := by
                  rw [← hsplit, show s - i = t.length + (s - (i + t.length + 1) + 1) from by
                      omega]
                  rw [List.drop_append, List.drop_succ_cons]
                rw [h2]
                exact hdata
              · by_cases hs0 : s = i + t.length + 1
                · refine ⟨rh, ?_, hrh⟩
                  rw [← hsplit, show s - i - 1 = t.length from by omega]
                  rw [List.getElem?_append_right (Nat.le_refl _)]
                  simp
                · obtain ⟨his2, _, _, hmax⟩ := hmem' s w h
                  rcases hmax with heq | ⟨c', hgc, hcw⟩
                  · exact absurd heq hs0
                  · refine ⟨c', ?_, hcw⟩
                    rw [← hsplit, show s - i - 1
                        = t.length + (s - (i + t.length + 1) - 1 + 1) from by omega]
                    rw [List.getElem?_append_right (by omega)]
                    rw [show t.length + (s - (i + t.length + 1) - 1 + 1) - t.length
                        = s - (i + t.length + 1) - 1 + 1 from by omega]
                    simpa using hgc
            · rw [runsGo_cons_none_neg rt _ hrh]
              exact hpair'
        constructor
        · intro s w h
          rw [runsGo_cons_none_pos cs' i hc, ht] at h
          rcases List.mem_cons.mp h with hhead | htail
          · obtain ⟨hs, hw⟩ := (Prod.mk.injEq _ _ _ _).mp hhead
            subst hw
            subst hs
            refine ⟨Nat.le_refl _, ?_, ?_, Or.inl rfl⟩
            · show t ≠ []
              rw [htc]
              simp
            · simp only [Nat.sub_self, List.drop_zero]
              show t = (c :: cs').takeWhile isWordChar
              rw [ht]
          · obtain ⟨his, hne, hdata, hmax⟩ := tailfacts.1 s w htail
            exact ⟨by omega, hne, hdata, Or.inr hmax⟩
        · rw [runsGo_cons_none_pos cs' i hc, ht]
          refine List.pairwise_cons.mpr ⟨?_, tailfacts.2⟩
          intro b hb
          obtain ⟨his, _, _, _⟩ := tailfacts.1 b.1 b.2 (by simpa using hb)
          show i + String.length ⟨t⟩ < b.1
          simp only [String.length]
          omega
      · have hce : isWordChar c = false := by simpa using hc
        have hlen' : cs'.length ≤ n := by omega
        obtain ⟨hmem', hpair'⟩ := ih cs' hlen' (i + 1)
        constructor
        · intro s w h
          rw [runsGo_cons_none_neg cs' i hce] at h
          obtain ⟨his, hne, hdata, hmax⟩ := hmem' s w h
          refine ⟨by omega, hne, ?_, ?_⟩
          · rw [show s - i = (s - (i + 1)) + 1 from by omega, List.drop_succ_cons]
            exact hdata
          · by_cases hs1 : s = i + 1
            · refine Or.inr ⟨c, ?_, hce⟩
              rw [show s - i - 1 = 0 from by omega]
              simp
            · rcases hmax with heq | ⟨c', hgc, hcw⟩
              · exact absurd heq hs1
              · refine Or.inr ⟨c', ?_, hcw⟩
                rw [show s - i - 1 = (s - (i + 1) - 1) + 1 from by omega]
                simpa using hgc
        · rw [runsGo_cons_none_neg cs' i hce]
          exact hpair'

/-! The claims. -/

/-- C1: evaluation of the hover query at a failing input: in the document
consisting of the single word constructor, the word under the cursor is
none of the five fixed names, has no entry in the own five-name table,
and the Scanner plus Resolver path yields none, yet the built-in branch
is still taken through the Object.prototype chain and hover answers with
a scalar code block for constructor instead of falling through; so the
built-in branch does not fire exactly for the five names, contradicting
the claim and the documented intent, while at the word String it behaves
as documented. -/
theorem builtin_hover_prototype_leak :
    getWordAt "constructor" 0 = some "constructor" ∧
    ¬ ("constructor" = "String" ∨ "constructor" = "Int" ∨ "constructor" = "Float"
        ∨ "constructor" = "Boolean" ∨ "constructor" = "ID") ∧
    BUILTIN_SCALARS "constructor" = none ∧
    scannerHover "constructor" "constructor" = none ∧
    onHover "constructor" 0 ≠ scannerHover "constructor" "constructor" ∧
    onHover "constructor" 0 =
      some ⟨"markdown", "```graphql\nscalar constructor\n```\n\n"
        ++ protoMemberDisplay "constructor"⟩ ∧
    onHover "String" 0 = some ⟨"markdown",
      "```graphql\nscalar String\n```\n\n" ++
        "The String scalar type represents textual data, represented as UTF-8 character sequences."⟩ := by
  decide

/-- C2: the resolver returns the first declaration in document order whose
name equals the query name under exact case-sensitive comparison: a hit
bears the queried name, belongs to the scanner output, and has minimal
line among all declarations of that name, and the resolver returns none
exactly when no declaration bears the name. -/
theorem resolver_first_match (text name : String) :
    (∀ d, resolveDefinition (parseGraphQLDefinitions text) name = some d →
      d ∈ parseGraphQLDefinitions text ∧ d.name = name ∧
      ∀ e ∈ parseGraphQLDefinitions text, e.name = name → d.line ≤ e.line) ∧
    (resolveDefinition (parseGraphQLDefinitions text) name = none ↔
      ∀ d ∈ parseGraphQLDefinitions text, d.name ≠ name) := by
  constructor
  · intro d hd
    refine ⟨List.mem_of_find?_eq_some hd, ?_, ?_⟩
    · have := List.find?_some hd
      simpa using this
    · intro e he hen
      exact find?_min_line (scanLines_sorted _ _ _) hd e he (by simpa using hen)
  · unfold resolveDefinition
    rw [List.find?_eq_none]
    constructor
    · intro h d hd
      simpa using h d hd
    · intro h d hd
      simpa using h d hd

/-- Witness for C2: in a document declaring type Foo on line 0 and enum
Foo on line 1, the resolver hit for Foo is the line-0 declaration. -/
theorem resolver_first_match_witness :
    (⟨"type", "Foo", 0, "type Foo", none⟩ : Definition) ∈
      parseGraphQLDefinitions "type Foo\nenum Foo" ∧
    (⟨"type", "Foo", 0, "type Foo", none⟩ : Definition).name = "Foo" := by
  have h := (resolver_first_match "type Foo\nenum Foo" "Foo").1
      ⟨"type", "Foo", 0, "type Foo", none⟩ (by decide)
  exact ⟨h.1, h.2.1⟩

/-- C8: the scanner's output is sorted by line strictly ascending, so at
most one declaration per line in document order, and every declaration's
kind and name are the capture groups of the declaration regex applied to
its raw introducer line, whose trimmed text is recorded as its text. -/
theorem scanner_sorted_and_regex (text : String) :
    List.Pairwise (fun a b => a.line < b.line) (parseGraphQLDefinitions text) ∧
    ∀ d ∈ parseGraphQLDefinitions text,
      matchDefinition ((splitLines text).getD d.line "") = some (d.kind, d.name) ∧
      d.text = jsTrim ((splitLines text).getD d.line "") := by
  constructor
  · exact scanLines_sorted _ _ _
  · intro d hd
    obtain ⟨j, hj, hline, hm, ht⟩ := scanLines_mem (splitLines text) 0 ⟨[], false⟩ d hd
    have hdj : d.line = j := by omega
    rw [hdj]
    exact ⟨hm, ht⟩

/-- Witness for C8 at a two-declaration document. -/
theorem scanner_sorted_and_regex_witness :
    matchDefinition ((splitLines "type A\nscalar B").getD 0 "") = some ("type", "A") := by
  have h := (scanner_sorted_and_regex "type A\nscalar B").2
      ⟨"type", "A", 0, "type A", none⟩ (by decide)
  exact h.1

/-- C9: evaluation of the describe-symbol query at a failing input: in
the document consisting of the single word constructor the word lookup
succeeds, the resolver and the own five-name table both fail, so the
lookup is unsatisfiable in the sense of the claim, yet hover returns a
result through the Object.prototype chain instead of the explicit absent
result; the absent-result clauses for the other two queries do hold on
that document. -/
theorem hover_absent_result_violated :
    getWordAt "constructor" 0 = some "constructor" ∧
    resolveDefinition (parseGraphQLDefinitions "constructor") "constructor" = none ∧
    BUILTIN_SCALARS "constructor" = none ∧
    onHover "constructor" 0 ≠ none ∧
    onDefinition "u" "constructor" 0 = none ∧
    onDocumentSymbol "constructor" = [] := by
  decide

/-- C10: the locate-definition query never consults the built-in scalar
table: whenever the resolver finds a user declaration for the word under
the cursor, onDefinition returns that declaration's location, even when
the word is one of the five built-in scalar names, while onHover prefers
the built-in description for those same names. -/
theorem definition_ignores_builtins (uri text : String) (offset : Nat) (w : String)
    (d : Definition)
    (hw : getWordAt text offset = some w)
    (hr : resolveDefinition (parseGraphQLDefinitions text) w = some d) :
    onDefinition uri text offset =
      some ⟨uri, ⟨⟨d.line, 0⟩, ⟨d.line, d.text.length⟩⟩⟩ ∧
    (∀ desc, BUILTIN_SCALARS w = some desc →
      onHover text offset =
        some ⟨"markdown", "```graphql\nscalar " ++ w ++ "\n```\n\n" ++ desc⟩) :=
  ⟨by simp [onDefinition, hw, hr], fun desc hd => by simp [onHover, builtinLookup, hw, hd]⟩

/-- Witness for C10: a document declaring scalar String, queried at the
word String, navigates to the user declaration on line 0. -/
theorem definition_ignores_builtins_witness :
    onDefinition "file.graphql" "scalar String" 7 =
      some ⟨"file.graphql", ⟨⟨0, 0⟩, ⟨0, 13⟩⟩⟩ := by
  have h := (definition_ignores_builtins "file.graphql" "scalar String" 7 "String"
      ⟨"scalar", "String", 0, "scalar String", none⟩ (by decide) (by decide)).1
  exact h

/-- While the scanner is inside a block comment and every remaining line
that starts with the triple-quote delimiter is a self-contained one-line
comment (so the flag is never cleared), no declaration is emitted for the
rest of the document. -/
theorem scanLines_inside_nil :
    ∀ (ls : List String) (i : Nat) (st : ScanState),
      st.inMultiLineComment = true →
      (∀ m ∈ ls, startsWithStr (jsTrim m) "\"\"\"" = true → countTQ (jsTrim m).data = 2) →
      scanLines ls i st = [] := by
  intro ls
  induction ls with
  | nil => intro i st _ _; rfl
  | cons l ls ih =>
    intro i st hin hall
    by_cases h1 : startsWithStr (jsTrim l) "\"\"\"" = true
    · have h2 : countTQ (jsTrim l).data = 2 := hall l (List.mem_cons_self _ _) h1
      rcases hsc : scanLine st l i with ⟨st1, od⟩
      have hflag : st1.inMultiLineComment = true := by
        have hfs := @scanLine_flag_same st l i h2
        rw [hsc] at hfs
        simpa [hin] using hfs
      have hod : od = none := by
        have hq := (@scanLine_quote_line st l i h1).2
        rw [hsc] at hq
        simpa using hq
      subst hod
      simp only [scanLines, hsc]
      exact ih (i + 1) st1 hflag (fun m hm => hall m (List.mem_cons_of_mem _ hm))
    · have h1' : startsWithStr (jsTrim l) "\"\"\"" = false := by simpa using h1
      rw [show scanLines (l :: ls) i st
          = scanLines ls (i + 1) ({ st with currentDoc := st.currentDoc ++ [l] }) from by
        simp only [scanLines, scanLine_inside i h1' hin]]
      exact ih (i + 1) _ hin (fun m hm => hall m (List.mem_cons_of_mem _ hm))

/-- C3: a declaration's documentation is the pending run of comment lines
joined by newline, or none when the run is empty: comment lines (block
delimiter lines and hash lines) append to the pending run, a non-empty
trimmed line that is neither a comment nor a declaration clears it, and a
line that trims to empty leaves the scanner state untouched, so blank
lines between the comment run and the declaration do not break the
attachment; two closed documents exhibit the attachment and the reset. -/
theorem scanner_doc_attachment (st : ScanState) (l : String) (i : Nat) :
    (startsWithStr (jsTrim l) "\"\"\"" = true →
      (scanLine st l i).1.currentDoc = st.currentDoc ++ [l] ∧ (scanLine st l i).2 = none) ∧
    (startsWithStr (jsTrim l) "\"\"\"" = false → st.inMultiLineComment = false →
      startsWithStr (jsTrim l) "#" = true →
      scanLine st l i = ({ st with currentDoc := st.currentDoc ++ [l] }, none)) ∧
    (∀ kind name, startsWithStr (jsTrim l) "\"\"\"" = false →
      st.inMultiLineComment = false →
      startsWithStr (jsTrim l) "#" = false →
      matchDefinition l = some (kind, name) →
      scanLine st l i =
        (⟨[], false⟩,
         some ⟨kind, name, i, jsTrim l,
               if st.currentDoc.isEmpty then none else some (joinNL st.currentDoc)⟩)) ∧
    (startsWithStr (jsTrim l) "\"\"\"" = false → st.inMultiLineComment = false →
      startsWithStr (jsTrim l) "#" = false →
      matchDefinition l = none → jsTrim l ≠ "" →
      scanLine st l i = ({ st with currentDoc := [] }, none)) ∧
    (st.inMultiLineComment = false → jsTrim l = "" →
      scanLine st l i = (st, none)) ∧
    (parseGraphQLDefinitions "# doc line\n\ntype A").map (fun d => d.documentation)
      = [some "# doc line"] ∧
    (parseGraphQLDefinitions "# doc line\nstray\ntype A").map (fun d => d.documentation)
      = [none] := by
  refine ⟨scanLine_quote_line i, scanLine_hash i,
         fun kind name h1 h2 h3 hm => scanLine_decl i h1 h2 h3 hm,
         scanLine_reset i, scanLine_blank i, by decide, by decide⟩

/-- Witness for C3: a line that trims to empty leaves both the pending
documentation and the flag untouched. -/
theorem scanner_doc_attachment_witness :
    scanLine ⟨["# d"], false⟩ "" 3 = (⟨["# d"], false⟩, none) := by
  have h := (scanner_doc_attachment ⟨["# d"], false⟩ "" 3).2.2.2.2.1
  exact h rfl rfl

/-- C5: while the block-comment flag is set, every line is appended to the
pending documentation and emits no declaration, even a line matching the
declaration pattern; a line whose trimmed text contains the triple-quote
delimiter exactly twice never toggles the flag; consequently a block
comment that is never terminated makes the scanner emit no declarations
for the remainder of the document. -/
theorem block_comment_state (st : ScanState) (l : String) (i : Nat) (ls : List String) :
    (st.inMultiLineComment = true →
      (scanLine st l i).1.currentDoc = st.currentDoc ++ [l] ∧ (scanLine st l i).2 = none) ∧
    (countTQ (jsTrim l).data = 2 →
      (scanLine st l i).1.inMultiLineComment = st.inMultiLineComment) ∧
    (st.inMultiLineComment = true →
      (∀ m ∈ ls, startsWithStr (jsTrim m) "\"\"\"" = true → countTQ (jsTrim m).data = 2) →
      scanLines ls i st = []) ∧
    parseGraphQLDefinitions "\"\"\"\ntype A" = [] := by
  refine ⟨?_, scanLine_flag_same i, scanLines_inside_nil ls i st, by decide⟩
  intro hin
  by_cases h1 : startsWithStr (jsTrim l) "\"\"\"" = true
  · exact scanLine_quote_line i h1
  · have h1' : startsWithStr (jsTrim l) "\"\"\"" = false := by simpa using h1
    rw [scanLine_inside i h1' hin]
    exact ⟨rfl, rfl⟩

/-- Witness for C5: inside a block comment a declaration-shaped line emits
nothing, and a remainder with no further delimiter yields no declarations. -/
theorem block_comment_state_witness :
    (scanLine ⟨[], true⟩ "type B" 0).2 = none ∧
    scanLines ["type C"] 0 ⟨[], true⟩ = [] := by
  have h := block_comment_state ⟨[], true⟩ "type B" 0 ["type C"]
  exact ⟨(h.1 rfl).2, h.2.2.1 rfl (by decide)⟩

/-- C4: span expansion for type, interface, input and enum consumes lines
from the raw introducer line with a running brace balance seeded on the
introducer, appending the next raw line while the balance is positive and
lines remain, stopping when the balance is no longer positive or the
document ends, the result being the consumed lines joined by newline; a
balanced 3-line block expands to exactly its 3 lines and an unterminated
block expands to the end of the document without error. -/
theorem brace_span_expansion (text : String) (d : Definition)
    (hk : d.kind = "type" ∨ d.kind = "interface" ∨ d.kind = "input" ∨ d.kind = "enum") :
    (∃ k, k ≤ ((splitLines text).drop (d.line + 1)).length ∧
      expandSpan text d =
        joinNL ((splitLines text).getD d.line ""
          :: ((splitLines text).drop (d.line + 1)).take k) ∧
      (∀ j, j < k →
        0 < braceBalanceAt ((splitLines text).getD d.line "")
              ((splitLines text).drop (d.line + 1)) j) ∧
      (k = ((splitLines text).drop (d.line + 1)).length ∨
        ¬ 0 < braceBalanceAt ((splitLines text).getD d.line "")
              ((splitLines text).drop (d.line + 1)) k)) ∧
    expandSpan "type User \x7b\n  id: ID!\n\x7d" ⟨"type", "User", 0, "type User \x7b", none⟩
      = "type User \x7b\n  id: ID!\n\x7d" ∧
    expandSpan "type X \x7b\nfield: Int" ⟨"type", "X", 0, "type X \x7b", none⟩
      = "type X \x7b\nfield: Int" := by
  refine ⟨?_, by decide, by decide⟩
  have hexp : expandSpan text d =
      expandBraces ((splitLines text).drop (d.line + 1))
        ((splitLines text).getD d.line "")
        (braceDelta ((splitLines text).getD d.line "")) := by
    rcases hk with h | h | h | h
    · simp only [expandSpan]
      rw [h, if_pos (Or.inl rfl)]
    · simp only [expandSpan]
      rw [h, if_pos (Or.inr (Or.inl rfl))]
    · simp only [expandSpan]
      rw [h, if_pos (Or.inr (Or.inr (Or.inl rfl)))]
    · simp only [expandSpan]
      rw [h, if_pos (Or.inr (Or.inr (Or.inr rfl)))]
  rw [hexp]
  obtain ⟨k, hk1, hk2, hk3, hk4⟩ := expandBraces_spec ((splitLines text).drop (d.line + 1))
      (braceDelta ((splitLines text).getD d.line ""))
      ((splitLines text).getD d.line "")
  refine ⟨k, hk1, hk2, fun j hj => by simpa [braceBalanceAt] using hk3 j hj, ?_⟩
  rcases hk4 with h | h
  · exact Or.inl h
  · exact Or.inr (by simpa [braceBalanceAt] using h)

/-- Witness for C4: the balanced 3-line object type expands to exactly its
own 3 lines. -/
theorem brace_span_expansion_witness :
    expandSpan "type User \x7b\n  id: ID!\n\x7d" ⟨"type", "User", 0, "type User \x7b", none⟩
      = "type User \x7b\n  id: ID!\n\x7d" :=
  (brace_span_expansion "type User \x7b\n  id: ID!\n\x7d"
      ⟨"type", "User", 0, "type User \x7b", none⟩ (Or.inl rfl)).2.1

/-- C7: span expansion for a union consumes, after the introducer line,
exactly the following lines whose trimmed text begins with the bar
continuation marker, stopping at the first other line or end of document
with no brace tracking, the result being the consumed lines joined by
newline; span expansion for a scalar performs no expansion and returns
just the introducer line. -/
theorem union_scalar_span (text : String) (d : Definition) :
    (d.kind = "union" →
      ∃ k, k ≤ ((splitLines text).drop (d.line + 1)).length ∧
        expandSpan text d =
          joinNL ((splitLines text).getD d.line ""
            :: ((splitLines text).drop (d.line + 1)).take k) ∧
        (∀ j, j < k →
          startsWithStr (jsTrim (((splitLines text).drop (d.line + 1)).getD j "")) "|"
            = true) ∧
        (k = ((splitLines text).drop (d.line + 1)).length ∨
          startsWithStr (jsTrim (((splitLines text).drop (d.line + 1)).getD k "")) "|"
            = false)) ∧
    (d.kind = "scalar" → expandSpan text d = (splitLines text).getD d.line "") := by
  constructor
  · intro h
    have hnot : ¬ (d.kind = "type" ∨ d.kind = "interface" ∨ d.kind = "input"
        ∨ d.kind = "enum") := by
      rw [h]; decide
    have hexp : expandSpan text d =
        expandUnion ((splitLines text).drop (d.line + 1))
          ((splitLines text).getD d.line "") := by
      simp only [expandSpan]
      rw [if_neg hnot, h, if_pos rfl]
    rw [hexp]
    exact expandUnion_spec _ _
  · intro h
    have hnot : ¬ (d.kind = "type" ∨ d.kind = "interface" ∨ d.kind = "input"
        ∨ d.kind = "enum") := by
      rw [h]; decide
    simp only [expandSpan]
    rw [if_neg hnot, h, if_neg (by decide : ¬ ("scalar" = "union"))]

/-- Witness for C7: a scalar declaration's span is just its introducer line. -/
theorem union_scalar_span_witness :
    expandSpan "scalar S" ⟨"scalar", "S", 0, "scalar S", none⟩ = "scalar S" := by
  have h := (union_scalar_span "scalar S" ⟨"scalar", "S", 0, "scalar S", none⟩).2 rfl
  exact h.trans (by decide)

/-- C6: the word locator scans all maximal identifier runs left to right
and returns the run whose inclusive span from its start to its start plus
its length contains the offset (runs being pairwise disjoint, the first
such run is the only one), and none when no run contains the offset; on
the text User followed by a space, offsets 0 through 4 resolve to User
and offset 5 does not. -/
theorem word_locator_spec (text : String) (offset : Nat) :
    (∀ s w, (s, w) ∈ wordRuns text →
      w.data ≠ [] ∧
      w.data = (text.data.drop s).takeWhile isWordChar ∧
      (s = 0 ∨ ∃ c, text.data[s - 1]? = some c ∧ isWordChar c = false)) ∧
    List.Pairwise (fun a b => a.1 + a.2.length < b.1) (wordRuns text) ∧
    (getWordAt text offset = none ↔
      ∀ s w, (s, w) ∈ wordRuns text → ¬ (s ≤ offset ∧ offset ≤ s + w.length)) ∧
    (∀ w, getWordAt text offset = some w ↔
      ∃ s, (s, w) ∈ wordRuns text ∧ s ≤ offset ∧ offset ≤ s + w.length) ∧
    (∀ k, k ≤ 4 → getWordAt "User " k = some "User") ∧
    getWordAt "User " 5 = none := by
  obtain ⟨hmem, hpair⟩ := runsGo_spec text.data.length text.data (Nat.le_refl _) 0
  refine ⟨?_, hpair, ?_, ?_, by decide, by decide⟩
  · intro s w h
    obtain ⟨_, hne, hdata, hmax⟩ := hmem s w h
    refine ⟨hne, by simpa using hdata, ?_⟩
    rcases hmax with h0 | ⟨c, hc, hcw⟩
    · exact Or.inl h0
    · exact Or.inr ⟨c, by simpa using hc, hcw⟩
  · unfold getWordAt
    constructor
    · intro h s w hsw hcont
      have hf : (wordRuns text).find?
          (fun r => decide (r.1 ≤ offset ∧ offset ≤ r.1 + r.2.length)) = none :=
        Option.map_eq_none'.mp h
      exact List.find?_eq_none.mp hf (s, w) hsw (decide_eq_true hcont)
    · intro h
      rw [Option.map_eq_none']
      refine List.find?_eq_none.mpr ?_
      rintro ⟨s, w⟩ hsw
      simpa using h s w hsw
  · intro w
    constructor
    · intro h
      unfold getWordAt at h
      cases hf : (wordRuns text).find?
          (fun r => decide (r.1 ≤ offset ∧ offset ≤ r.1 + r.2.length)) with
      | none => rw [hf] at h; simp at h
      | some r =>
        rw [hf] at h
        simp only [Option.map_some', Option.some.injEq] at h
        have hrmem := List.mem_of_find?_eq_some hf
        have hrp := List.find?_some hf
        simp only [decide_eq_true_eq] at hrp
        refine ⟨r.1, ?_, hrp.1, ?_⟩
        · rw [← h]
          simpa using hrmem
        · rw [← h]
          exact hrp.2
    · rintro ⟨s, hsw, h1, h2⟩
      unfold getWordAt
      cases hf : (wordRuns text).find?
          (fun r => decide (r.1 ≤ offset ∧ offset ≤ r.1 + r.2.length)) with
      | none =>
        exact absurd (decide_eq_true ⟨h1, h2⟩) (List.find?_eq_none.mp hf (s, w) hsw)
      | some r =>
        have hrmem := List.mem_of_find?_eq_some hf
        have hrp := List.find?_some hf
        simp only [decide_eq_true_eq] at hrp
        simp only [Option.map_some', Option.some.injEq]
        by_cases heq : r = (s, w)
        · rw [heq]
        · have hsym : List.Pairwise
              (fun a b : Nat × String => a.1 + a.2.length < b.1 ∨ b.1 + b.2.length < a.1)
              (wordRuns text) := hpair.imp (fun h => Or.inl h)
          have hrel := List.Pairwise.forall
            (fun x y h => h.elim Or.inr Or.inl) hsym hrmem hsw heq
          exfalso
          rcases hrel with hlt | hlt <;> dsimp only at hlt <;> omega

/-- Witness for C6: offset 4, the trailing boundary of the word User,
still resolves to User. -/
theorem word_locator_spec_witness : getWordAt "User " 4 = some "User" :=
  (word_locator_spec "User " 0).2.2.2.2.1 4 (by decide)
